import Mathlib

set_option maxRecDepth 100000

/-!
Shallow embedding of the id57 base57 codec and identifier generator
(src/src/lib.rs).  Strings are modelled as lists of Unicode code points
(`List Nat`); for the ASCII output of the encoder a code point equals the
byte value, matching the Rust code, which indexes its decode table by byte.
Machine integers (`u128`) are modelled as `Nat` with explicit bound checks
against `U128_MAX`, mirroring the `checked_mul` / `checked_add` calls.
-/

/-- The 57-character alphabet, as byte values, from
`const ALPHABET: &[u8; 57] = b"23456789ABCDEFGHJKLMNPQRSTUVWXYZabcdefghijkmnopqrstuvwxyz"`. -/
def ALPHABET : List Nat :=
  "23456789ABCDEFGHJKLMNPQRSTUVWXYZabcdefghijkmnopqrstuvwxyz".toList.map Char.toNat

/-- `const BASE: u128 = 57`. -/
def BASE : Nat := 57

/-- `const TIMESTAMP_WIDTH: usize = 11`. -/
def TIMESTAMP_WIDTH : Nat := 11

/-- `const UUID_WIDTH: usize = 22`. -/
def UUID_WIDTH : Nat := 22

/-- `const IDENTIFIER_WIDTH: usize = TIMESTAMP_WIDTH + UUID_WIDTH`. -/
def IDENTIFIER_WIDTH : Nat := TIMESTAMP_WIDTH + UUID_WIDTH

/-- `const INVALID: u8 = 0xFF`. -/
def INVALID : Nat := 0xFF

/-- Largest value of `u128`. -/
def U128_MAX : Nat := 2 ^ 128 - 1

/-- `build_decode_table`: start from all-`INVALID` and set
`table[ALPHABET[i]] = i` for `i = 0..56`; modelled as a function
`byte value → digit value or INVALID` built by the same loop. -/
def build_decode_table : Nat → Nat :=
  (List.range 57).foldl
    (fun table i => fun b => if b = ALPHABET.getD i 0 then i else table b)
    (fun _ => INVALID)

/-- `const DECODE_TABLE: [u8; 256] = build_decode_table();` -/
def DECODE_TABLE : Nat → Nat := build_decode_table

/-- The little-endian digit values produced by the `while value > 0` loop of
`encode_base57_raw` (`value % BASE` pushed, `value /= BASE`).  The first
argument is fuel; calling with fuel `= value` always suffices since
`value / 57 < value`. -/
def digitsAux : Nat → Nat → List Nat
  | _, 0 => []
  | 0, _ + 1 => []
  | fuel + 1, v + 1 => (v + 1) % BASE :: digitsAux fuel ((v + 1) / BASE)

/-- `encode_base57_raw`: value 0 encodes to `vec![ALPHABET[0]]`; otherwise the
loop pushes `ALPHABET[value % BASE]` while dividing, then reverses the buffer. -/
def encode_base57_raw (value : Nat) : List Nat :=
  if value = 0 then [ALPHABET.getD 0 0]
  else ((digitsAux value value).map (fun d => ALPHABET.getD d 0)).reverse

/-- `encode_base57`: left-pad the raw digits with `ALPHABET[0]` when `pad_to`
exceeds their length, otherwise return them unchanged. -/
def encode_base57 (value : Nat) (pad_to : Option Nat) : List Nat :=
  let digits := encode_base57_raw value
  match pad_to with
  | some width =>
      if width > digits.length then
        List.replicate (width - digits.length) (ALPHABET.getD 0 0) ++ digits
      else digits
  | none => digits

/-- The error taxonomy of `decode_base57` (raised as `PyValueError` in the
source): empty input, invalid character with the offending code point and the
reported position, and `u128` overflow. -/
inductive DecodeError where
  | emptyInput : DecodeError
  | invalidCharacter (ch : Nat) (pos : Nat) : DecodeError
  | overflow : DecodeError
deriving DecidableEq

deriving instance DecidableEq for Except

/-- `u128::checked_mul`. -/
def checked_mul (a b : Nat) : Option Nat :=
  if a * b ≤ U128_MAX then some (a * b) else none

/-- `u128::checked_add`. -/
def checked_add (a b : Nat) : Option Nat :=
  if a + b ≤ U128_MAX then some (a + b) else none

/-- Number of bytes of the UTF-8 encoding of a code point: the step taken by
`char_indices` between consecutive characters. -/
def utf8Len (c : Nat) : Nat :=
  if c < 0x80 then 1 else if c < 0x800 then 2 else if c < 0x10000 then 3 else 4

/-- The `for (index, ch) in value.char_indices()` loop of `decode_base57`:
`index` is the byte offset of `ch`, `result` the accumulator.  Each character
must be ASCII (`ch.is_ascii()`, i.e. code point < 128) and map to a
non-`INVALID` digit; the accumulation uses checked arithmetic. -/
def decodeLoop : List Nat → Nat → Nat → Except DecodeError Nat
  | [], _, result => .ok result
  | ch :: rest, index, result =>
    if ch < 128 then
      let digit := DECODE_TABLE ch
      if digit = INVALID then .error (.invalidCharacter ch index)
      else
        match (checked_mul result BASE).bind (fun acc => checked_add acc digit) with
        | some acc => decodeLoop rest (index + utf8Len ch) acc
        | none => .error .overflow
    else .error (.invalidCharacter ch index)

/-- `decode_base57`: reject the empty string, then run the accumulation loop
from byte offset 0 and accumulator 0. -/
def decode_base57 (value : List Nat) : Except DecodeError Nat :=
  if value = [] then .error .emptyInput
  else decodeLoop value 0 0

/-- The core of `generate_id57` once `extract_timestamp` and `extract_uuid`
have produced `u128` values: encode the timestamp padded to
`TIMESTAMP_WIDTH`, the uuid padded to `UUID_WIDTH`, and concatenate. -/
def generate_id57 (ts_value uuid_value : Nat) : List Nat :=
  encode_base57 ts_value (some TIMESTAMP_WIDTH) ++
    encode_base57 uuid_value (some UUID_WIDTH)

/-- Byte values of an ASCII string literal, for concrete test vectors. -/
def strBytes (s : String) : List Nat := s.toList.map Char.toNat

/-- The left-to-right positional value of a digit list, starting from an
accumulator: exactly the `result = result * BASE + digit` recurrence of the
decode loop, but over unbounded naturals. -/
def listVal (ds : List Nat) (acc : Nat) : Nat :=
  ds.foldl (fun a d => a * BASE + d) acc

/-- A code point accepted by one step of the decode loop: ASCII and mapped to
a digit by the decode table. -/
def validChar (c : Nat) : Prop := c < 128 ∧ DECODE_TABLE c ≠ INVALID

instance (c : Nat) : Decidable (validChar c) := by
  unfold validChar; infer_instance

/-- The exact `k`-digit big-endian base-57 digit string of a value `< 57 ^ k`:
the fixed-width view of the encoder output used to reason about
lexicographic order. -/
def padDigits : Nat → Nat → List Nat
  | 0, _ => []
  | k + 1, v => v / BASE ^ k :: padDigits k (v % BASE ^ k)

/-! ### Facts about the alphabet and the decode table -/

theorem base_pos : 0 < BASE := by decide

theorem table_alph : ∀ d, d < 57 → DECODE_TABLE (ALPHABET.getD d 0) = d := by decide

theorem alph_lt128 : ∀ d, d < 57 → ALPHABET.getD d 0 < 128 := by decide

theorem alph_mem : ∀ d, d < 57 → ALPHABET.getD d 0 ∈ ALPHABET := by decide

theorem alph_mono : ∀ a, a < 57 → ∀ b, b < 57 → a < b →
    ALPHABET.getD a 0 < ALPHABET.getD b 0 := by decide

theorem alph_validChar (d : Nat) (hd : d < 57) : validChar (ALPHABET.getD d 0) := by
  refine ⟨alph_lt128 d hd, ?_⟩
  rw [table_alph d hd]
  unfold INVALID
  omega

/-! ### The positional value of a digit list -/

theorem listVal_nil (acc : Nat) : listVal [] acc = acc := rfl

theorem listVal_cons (d : Nat) (ds : List Nat) (acc : Nat) :
    listVal (d :: ds) acc = listVal ds (acc * BASE + d) := rfl

theorem listVal_append (xs ys : List Nat) (acc : Nat) :
    listVal (xs ++ ys) acc = listVal ys (listVal xs acc) := by
  simp [listVal, List.foldl_append]

theorem listVal_le (ds : List Nat) (acc : Nat) : acc ≤ listVal ds acc := by
  induction ds generalizing acc with
  | nil => simp [listVal]
  | cons d ds ih =>
      rw [listVal_cons]
      have h1 : acc ≤ acc * BASE + d := by unfold BASE; omega
      exact le_trans h1 (ih _)

theorem listVal_replicate_zero (m acc : Nat) :
    listVal (List.replicate m 0) acc = acc * BASE ^ m := by
  induction m generalizing acc with
  | zero => simp [listVal]
  | succ m ih =>
      rw [List.replicate_succ, listVal_cons, ih]
      ring

/-! ### The digit loop of the encoder -/

theorem digitsAux_zero (fuel : Nat) : digitsAux fuel 0 = [] := by
  cases fuel <;> rfl

theorem digitsAux_succ (fuel v : Nat) :
    digitsAux (fuel + 1) (v + 1) = (v + 1) % BASE :: digitsAux fuel ((v + 1) / BASE) := rfl

theorem digitsAux_lt (fuel : Nat) : ∀ v, ∀ d ∈ digitsAux fuel v, d < BASE := by
  induction fuel with
  | zero => intro v d hd; cases v <;> simp [digitsAux] at hd
  | succ fuel ih =>
      intro v d hd
      cases v with
      | zero => simp [digitsAux_zero] at hd
      | succ v =>
          rw [digitsAux_succ] at hd
          rcases List.mem_cons.mp hd with h | h
          · subst h; exact Nat.mod_lt _ base_pos
          · exact ih _ d h

theorem digitsAux_val (fuel : Nat) : ∀ v acc, v ≤ fuel →
    listVal (digitsAux fuel v).reverse acc
      = acc * BASE ^ (digitsAux fuel v).length + v := by
  induction fuel with
  | zero =>
      intro v acc hv
      have hv0 : v = 0 := Nat.le_zero.mp hv
      subst hv0
      simp [digitsAux_zero, listVal]
  | succ fuel ih =>
      intro v acc hv
      cases v with
      | zero => simp [digitsAux_zero, listVal]
      | succ v =>
          have hdiv : (v + 1) / BASE ≤ fuel := by
            have h1 : (v + 1) / BASE < v + 1 :=
              Nat.div_lt_self (Nat.succ_pos v) (by decide)
            omega
          rw [digitsAux_succ, List.reverse_cons, listVal_append, ih _ acc hdiv,
            listVal_cons, listVal_nil, List.length_cons]
          have hqr : (v + 1) / BASE * BASE + (v + 1) % BASE = v + 1 :=
            Nat.div_add_mod' (v + 1) BASE
          calc (acc * BASE ^ (digitsAux fuel ((v + 1) / BASE)).length + (v + 1) / BASE)
                  * BASE + (v + 1) % BASE
              = acc * BASE ^ (digitsAux fuel ((v + 1) / BASE)).length * BASE
                  + ((v + 1) / BASE * BASE + (v + 1) % BASE) := by ring
            _ = acc * BASE ^ ((digitsAux fuel ((v + 1) / BASE)).length + 1) + (v + 1) := by
                rw [hqr, pow_succ]; ring

theorem digitsAux_len_le (fuel : Nat) : ∀ v k, v < BASE ^ k →
    (digitsAux fuel v).length ≤ k := by
  induction fuel with
  | zero => intro v k _; cases v <;> simp [digitsAux]
  | succ fuel ih =>
      intro v k hv
      cases v with
      | zero => simp [digitsAux_zero]
      | succ v =>
          cases k with
          | zero => simp [pow_zero] at hv
          | succ k =>
              have hd : (v + 1) / BASE < BASE ^ k := by
                rw [Nat.div_lt_iff_lt_mul base_pos]
                calc v + 1 < BASE ^ (k + 1) := hv
                  _ = BASE ^ k * BASE := by rw [pow_succ]
              rw [digitsAux_succ, List.length_cons]
              have := ih ((v + 1) / BASE) k hd
              omega

/-! ### The encoder -/

theorem encode_base57_raw_ne_nil (v : Nat) : encode_base57_raw v ≠ [] := by
  unfold encode_base57_raw
  split
  · simp
  · rename_i hv
    cases v with
    | zero => exact absurd rfl hv
    | succ w => rw [digitsAux_succ]; simp

theorem encode_base57_ne_nil (v : Nat) (w : Option Nat) : encode_base57 v w ≠ [] := by
  unfold encode_base57
  rcases w with _ | width
  · exact encode_base57_raw_ne_nil v
  · dsimp only
    split
    · simp [encode_base57_raw_ne_nil v]
    · exact encode_base57_raw_ne_nil v

theorem encode_base57_raw_chars (v : Nat) :
    ∀ c ∈ encode_base57_raw v, ∃ d, d < 57 ∧ c = ALPHABET.getD d 0 := by
  intro c hc
  unfold encode_base57_raw at hc
  split at hc
  · rw [List.mem_singleton] at hc
    exact ⟨0, by omega, hc⟩
  · rw [List.mem_reverse] at hc
    rcases List.mem_map.mp hc with ⟨d, hd, rfl⟩
    exact ⟨d, digitsAux_lt _ _ d hd, rfl⟩

theorem encode_base57_chars (v : Nat) (w : Option Nat) :
    ∀ c ∈ encode_base57 v w, ∃ d, d < 57 ∧ c = ALPHABET.getD d 0 := by
  intro c hc
  unfold encode_base57 at hc
  rcases w with _ | width
  · exact encode_base57_raw_chars v c hc
  · dsimp only at hc
    split at hc
    · rcases List.mem_append.mp hc with h | h
      · rw [List.eq_of_mem_replicate h]
        exact ⟨0, by omega, rfl⟩
      · exact encode_base57_raw_chars v c h
    · exact encode_base57_raw_chars v c hc

theorem encode_base57_raw_val (v : Nat) :
    listVal ((encode_base57_raw v).map DECODE_TABLE) 0 = v := by
  unfold encode_base57_raw
  split
  · rename_i hv
    subst hv
    rw [List.map_singleton, table_alph 0 (by omega)]
    rfl
  · rename_i hv
    rw [List.map_reverse, List.map_map]
    have hmap : (digitsAux v v).map (DECODE_TABLE ∘ fun d => ALPHABET.getD d 0)
        = (digitsAux v v).map id := by
      apply List.map_congr_left
      intro d hd
      exact table_alph d (digitsAux_lt v v d hd)
    rw [hmap, List.map_id, digitsAux_val v v 0 le_rfl]
    simp

theorem encode_base57_val (v : Nat) (w : Option Nat) :
    listVal ((encode_base57 v w).map DECODE_TABLE) 0 = v := by
  unfold encode_base57
  rcases w with _ | width
  · exact encode_base57_raw_val v
  · dsimp only
    split
    · rw [List.map_append, listVal_append, List.map_replicate,
        table_alph 0 (by omega), listVal_replicate_zero]
      simpa using encode_base57_raw_val v
    · exact encode_base57_raw_val v

theorem encode_base57_raw_len_le (v k : Nat) (hk : 1 ≤ k) (hv : v < BASE ^ k) :
    (encode_base57_raw v).length ≤ k := by
  unfold encode_base57_raw
  split
  · simpa using hk
  · rw [List.length_reverse, List.length_map]
    exact digitsAux_len_le v v k hv

theorem encode_base57_len (v k : Nat) (hk : 1 ≤ k) (hv : v < BASE ^ k) :
    (encode_base57 v (some k)).length = k := by
  have hle := encode_base57_raw_len_le v k hk hv
  unfold encode_base57
  dsimp only
  split
  · rename_i h
    rw [List.length_append, List.length_replicate]
    omega
  · rename_i h
    omega

/-! ### The decode loop -/

theorem utf8Len_ascii (c : Nat) (h : c < 128) : utf8Len c = 1 := by
  unfold utf8Len
  rw [if_pos (by omega)]

theorem decodeLoop_valid (l : List Nat) : ∀ idx acc, (∀ c ∈ l, validChar c) →
    acc ≤ U128_MAX →
    decodeLoop l idx acc =
      if listVal (l.map DECODE_TABLE) acc ≤ U128_MAX
      then .ok (listVal (l.map DECODE_TABLE) acc)
      else .error .overflow := by
  induction l with
  | nil =>
      intro idx acc _ hacc
      rw [decodeLoop, List.map_nil, listVal_nil, if_pos hacc]
  | cons c rest ih =>
      intro idx acc hval hacc
      obtain ⟨hc128, hcd⟩ := hval c (List.mem_cons_self c rest)
      rw [List.map_cons, listVal_cons, decodeLoop, if_pos hc128]
      dsimp only
      rw [if_neg hcd]
      by_cases hstep : acc * BASE + DECODE_TABLE c ≤ U128_MAX
      · have hmul : checked_mul acc BASE = some (acc * BASE) := by
          unfold checked_mul
          rw [if_pos (by omega)]
        have hadd : checked_add (acc * BASE) (DECODE_TABLE c)
            = some (acc * BASE + DECODE_TABLE c) := by
          unfold checked_add
          rw [if_pos hstep]
        rw [hmul, Option.some_bind, hadd]
        exact ih (idx + utf8Len c) (acc * BASE + DECODE_TABLE c)
          (fun x hx => hval x (List.mem_cons_of_mem c hx)) hstep
      · have hnone : (checked_mul acc BASE).bind
            (fun acc2 => checked_add acc2 (DECODE_TABLE c)) = none := by
          unfold checked_mul checked_add
          by_cases hm : acc * BASE ≤ U128_MAX
          · rw [if_pos hm, Option.some_bind, if_neg (by omega)]
          · rw [if_neg hm, Option.none_bind]
        rw [hnone]
        have hge := listVal_le (rest.map DECODE_TABLE) (acc * BASE + DECODE_TABLE c)
        rw [if_neg (by omega)]

theorem decodeLoop_invalid (c : Nat) (hc : ¬ validChar c) (rest : List Nat) :
    ∀ pre : List Nat, ∀ idx acc, (∀ x ∈ pre, validChar x) →
    listVal (pre.map DECODE_TABLE) acc ≤ U128_MAX →
    decodeLoop (pre ++ c :: rest) idx acc
      = .error (.invalidCharacter c (idx + pre.length)) := by
  intro pre
  induction pre with
  | nil =>
      intro idx acc _ _
      rw [List.nil_append, List.length_nil, Nat.add_zero, decodeLoop]
      unfold validChar at hc
      push_neg at hc
      by_cases h1 : c < 128
      · rw [if_pos h1]
        dsimp only
        rw [if_pos (hc h1)]
      · rw [if_neg h1]
  | cons x pre ih =>
      intro idx acc hval hbound
      obtain ⟨hx128, hxd⟩ := hval x (List.mem_cons_self x pre)
      rw [List.cons_append, decodeLoop, if_pos hx128]
      dsimp only
      rw [if_neg hxd]
      rw [List.map_cons, listVal_cons] at hbound
      have hge := listVal_le (pre.map DECODE_TABLE) (acc * BASE + DECODE_TABLE x)
      have hstep : acc * BASE + DECODE_TABLE x ≤ U128_MAX := by omega
      have hmul : checked_mul acc BASE = some (acc * BASE) := by
        unfold checked_mul
        rw [if_pos (by omega)]
      have hadd : checked_add (acc * BASE) (DECODE_TABLE x)
          = some (acc * BASE + DECODE_TABLE x) := by
        unfold checked_add
        rw [if_pos hstep]
      rw [hmul, Option.some_bind, hadd, utf8Len_ascii x hx128]
      have hrec := ih (idx + 1) (acc * BASE + DECODE_TABLE x)
        (fun y hy => hval y (List.mem_cons_of_mem x hy)) hbound
      show decodeLoop (pre ++ c :: rest) (idx + 1) (acc * BASE + DECODE_TABLE x)
          = Except.error (DecodeError.invalidCharacter c (idx + (x :: pre).length))
      rw [hrec, List.length_cons]
      have harith : idx + 1 + pre.length = idx + (pre.length + 1) := by omega
      rw [harith]

/-! ### Fixed-width digit strings and lexicographic order -/

theorem padDigits_length (k : Nat) : ∀ v, (padDigits k v).length = k := by
  induction k with
  | zero => intro v; rfl
  | succ k ih => intro v; rw [padDigits, List.length_cons, ih]

theorem padDigits_lt (k : Nat) : ∀ v, v < BASE ^ k → ∀ d ∈ padDigits k v, d < BASE := by
  induction k with
  | zero => intro v _ d hd; simp [padDigits] at hd
  | succ k ih =>
      intro v hv d hd
      rw [padDigits] at hd
      rcases List.mem_cons.mp hd with h | h
      · subst h
        rw [Nat.div_lt_iff_lt_mul (pow_pos base_pos k)]
        calc v < BASE ^ (k + 1) := hv
          _ = BASE * BASE ^ k := by rw [pow_succ]; ring
      · exact ih (v % BASE ^ k) (Nat.mod_lt v (pow_pos base_pos k)) d h

theorem padDigits_zero (k : Nat) : padDigits k 0 = List.replicate k 0 := by
  induction k with
  | zero => rfl
  | succ k ih => rw [padDigits, Nat.zero_div, Nat.zero_mod, ih, List.replicate_succ]

theorem padDigits_split (k : Nat) : ∀ v, v < BASE ^ (k + 1) →
    padDigits (k + 1) v = padDigits k (v / BASE) ++ [v % BASE] := by
  induction k with
  | zero =>
      intro v hv
      have hv' : v < BASE := by simpa using hv
      show v / BASE ^ 0 :: padDigits 0 (v % BASE ^ 0) = padDigits 0 (v / BASE) ++ [v % BASE]
      rw [pow_zero, Nat.div_one, Nat.mod_one]
      show [v] = [v % BASE]
      rw [Nat.mod_eq_of_lt hv']
  | succ k ih =>
      intro v _
      have hmod : v % BASE ^ (k + 1) < BASE ^ (k + 1) := Nat.mod_lt v (pow_pos base_pos _)
      rw [padDigits, ih (v % BASE ^ (k + 1)) hmod]
      rw [show padDigits (k + 1) (v / BASE)
          = v / BASE / BASE ^ k :: padDigits k (v / BASE % BASE ^ k) from rfl]
      rw [List.cons_append]
      have h1 : v / BASE ^ (k + 1) = v / BASE / BASE ^ k := by
        rw [Nat.div_div_eq_div_mul, ← pow_succ']
      have h2 : v % BASE ^ (k + 1) / BASE = v / BASE % BASE ^ k := by
        rw [pow_succ', Nat.mod_mul_right_div_self]
      have h3 : v % BASE ^ (k + 1) % BASE = v % BASE :=
        Nat.mod_mod_of_dvd v (dvd_pow_self BASE (Nat.succ_ne_zero k))
      rw [h1, h2, h3]

theorem padDigits_eq_digits (fuel : Nat) : ∀ v k, v ≤ fuel → v < BASE ^ k →
    padDigits k v = List.replicate (k - (digitsAux fuel v).length) 0
      ++ (digitsAux fuel v).reverse := by
  induction fuel with
  | zero =>
      intro v k hv _
      have hv0 : v = 0 := Nat.le_zero.mp hv
      subst hv0
      rw [digitsAux_zero]
      simp [padDigits_zero]
  | succ fuel ih =>
      intro v k hv hvk
      cases v with
      | zero => rw [digitsAux_zero]; simp [padDigits_zero]
      | succ v =>
          cases k with
          | zero => simp [pow_zero] at hvk
          | succ k =>
              have hdiv_le : (v + 1) / BASE ≤ fuel := by
                have h1 : (v + 1) / BASE < v + 1 :=
                  Nat.div_lt_self (Nat.succ_pos v) (by decide)
                omega
              have hdiv_lt : (v + 1) / BASE < BASE ^ k := by
                rw [Nat.div_lt_iff_lt_mul base_pos, ← pow_succ]
                exact hvk
              rw [padDigits_split k (v + 1) hvk, ih ((v + 1) / BASE) k hdiv_le hdiv_lt,
                digitsAux_succ, List.reverse_cons, List.length_cons]
              have hsub : k + 1 - ((digitsAux fuel ((v + 1) / BASE)).length + 1)
                  = k - (digitsAux fuel ((v + 1) / BASE)).length := by omega
              rw [hsub, List.append_assoc]

theorem encode_base57_pad_form (v k : Nat) (hlen : (encode_base57_raw v).length ≤ k) :
    encode_base57 v (some k)
      = List.replicate (k - (encode_base57_raw v).length) (ALPHABET.getD 0 0)
        ++ encode_base57_raw v := by
  unfold encode_base57
  dsimp only
  split
  · rfl
  · rename_i h
    have hk : k = (encode_base57_raw v).length := by omega
    rw [hk, Nat.sub_self, List.replicate_zero, List.nil_append]

theorem encode_base57_padDigits (v k : Nat) (hk : 1 ≤ k) (hv : v < BASE ^ k) :
    encode_base57 v (some k) = (padDigits k v).map (fun d => ALPHABET.getD d 0) := by
  have hlen := encode_base57_raw_len_le v k hk hv
  rw [encode_base57_pad_form v k hlen]
  rcases Nat.eq_zero_or_pos v with rfl | hvpos
  · rw [padDigits_zero, List.map_replicate]
    rw [show encode_base57_raw 0 = [ALPHABET.getD 0 0] from rfl]
    rw [List.length_singleton]
    cases k with
    | zero => omega
    | succ k => rw [Nat.succ_sub_one, ← List.replicate_succ']
  · rw [padDigits_eq_digits v v k le_rfl hv, List.map_append, List.map_replicate]
    have hraw : encode_base57_raw v
        = ((digitsAux v v).map (fun d => ALPHABET.getD d 0)).reverse := by
      unfold encode_base57_raw
      rw [if_neg (by omega)]
    rw [hraw, List.length_reverse, List.length_map, ← List.map_reverse]

theorem lex_append (r : Nat → Nat → Prop) :
    ∀ l1 l2 r1 r2 : List Nat, l1.length = l2.length → List.Lex r l1 l2 →
      List.Lex r (l1 ++ r1) (l2 ++ r2) := by
  intro l1
  induction l1 with
  | nil =>
      intro l2 r1 r2 hlen hlex
      cases hlex with
      | nil => simp at hlen
  | cons x t1 ih =>
      intro l2 r1 r2 hlen hlex
      cases hlex with
      | cons h =>
          rw [List.cons_append, List.cons_append]
          exact List.Lex.cons (ih _ r1 r2 (by simpa using hlen) h)
      | rel h =>
          rw [List.cons_append, List.cons_append]
          exact List.Lex.rel h

theorem lex_map_alph : ∀ l1 l2 : List Nat,
    (∀ d ∈ l1, d < BASE) → (∀ d ∈ l2, d < BASE) → List.Lex (· < ·) l1 l2 →
    List.Lex (· < ·) (l1.map (fun d => ALPHABET.getD d 0))
      (l2.map (fun d => ALPHABET.getD d 0)) := by
  intro l1
  induction l1 with
  | nil =>
      intro l2 _ _ hlex
      cases hlex with
      | nil =>
          rw [List.map_nil, List.map_cons]
          exact List.Lex.nil
  | cons x t1 ih =>
      intro l2 h1 h2 hlex
      cases hlex with
      | cons h =>
          rw [List.map_cons, List.map_cons]
          exact List.Lex.cons (ih _ (fun d hd => h1 d (List.mem_cons_of_mem _ hd))
            (fun d hd => h2 d (List.mem_cons_of_mem _ hd)) h)
      | rel h =>
          rw [List.map_cons, List.map_cons]
          apply List.Lex.rel
          exact alph_mono x (h1 x (List.mem_cons_self _ _)) _
            (h2 _ (List.mem_cons_self _ _)) h

theorem padDigits_lex (k : Nat) : ∀ v1 v2, v1 < v2 → v2 < BASE ^ k →
    List.Lex (· < ·) (padDigits k v1) (padDigits k v2) := by
  induction k with
  | zero => intro v1 v2 h12 h2; simp [pow_zero] at h2; omega
  | succ k ih =>
      intro v1 v2 h12 h2
      rw [padDigits, padDigits]
      have hd12 : v1 / BASE ^ k ≤ v2 / BASE ^ k := Nat.div_le_div_right (le_of_lt h12)
      rcases lt_or_eq_of_le hd12 with hlt | heq
      · exact List.Lex.rel hlt
      · rw [heq]
        apply List.Lex.cons
        apply ih
        · have e1 := Nat.div_add_mod v1 (BASE ^ k)
          have e2 := Nat.div_add_mod v2 (BASE ^ k)
          rw [heq] at e1
          revert e1 e2 h12
          generalize v1 % BASE ^ k = r1
          generalize v2 % BASE ^ k = r2
          generalize BASE ^ k * (v2 / BASE ^ k) = T
          intro e1 e2 h12
          omega
        · exact Nat.mod_lt v2 (pow_pos base_pos k)

/-- Round-trip core: decoding any encoder output of a `u128` value succeeds
and returns the value. -/
theorem decode_encode (v : Nat) (hv : v ≤ U128_MAX) (w : Option Nat) :
    decode_base57 (encode_base57 v w) = .ok v := by
  unfold decode_base57
  rw [if_neg (encode_base57_ne_nil v w)]
  rw [decodeLoop_valid (encode_base57 v w) 0 0 ?hval (by unfold U128_MAX; omega)]
  case hval =>
    intro c hc
    rcases encode_base57_chars v w c hc with ⟨d, hd, rfl⟩
    exact alph_validChar d hd
  rw [encode_base57_val, if_pos hv]

/-! ## The claims -/

/-- C1: for every integer `v` in [0, 2^128-1] and every padding width `w`
(including no padding), decoding the string produced by `encode(v, w)`
returns exactly `v`; padding with leading zero-digit characters does not
change the decoded value. -/
theorem C1_round_trip (v : Nat) (hv : v ≤ U128_MAX) (w : Option Nat) :
    decode_base57 (encode_base57 v w) = .ok v :=
  decode_encode v hv w

theorem C1_round_trip_witness :
    decode_base57 (encode_base57 12345 (some 22)) = .ok 12345 ∧
      decode_base57 (encode_base57 12345 none) = .ok 12345 :=
  ⟨C1_round_trip 12345 (by decide) (some 22), C1_round_trip 12345 (by decide) none⟩

/-- C2 counterexample: the timestamp 57^11 is a valid input to `generate`
(non-negative and representable in a `u128`), yet the resulting identifier
has 34 characters, not 33: the claim that the length is 33 for any
non-negative timestamp is false. -/
theorem C2_counterexample :
    57 ^ 11 ≤ U128_MAX ∧ (generate_id57 (57 ^ 11) 0).length = 34 := by
  refine ⟨by decide, by decide⟩

/-- C2 (amended): for every timestamp below 57^11 (so that it fits the fixed
11-digit segment, as §4.2 of the spec requires of callers) and every payload
in [0, 2^128-1], the identifier is an 11-character timestamp segment followed
by a 22-character payload segment - exactly 33 characters. -/
theorem C2_fixed_width (t p : Nat) (ht : t < 57 ^ 11) (hp : p ≤ U128_MAX) :
    (generate_id57 t p).length = 33 ∧
      (encode_base57 t (some TIMESTAMP_WIDTH)).length = 11 ∧
      (encode_base57 p (some UUID_WIDTH)).length = 22 := by
  have hp22 : p < BASE ^ 22 := by
    have h128 : U128_MAX < BASE ^ 22 := by decide
    omega
  have ht' : t < BASE ^ 11 := ht
  have h1 : (encode_base57 t (some TIMESTAMP_WIDTH)).length = 11 :=
    encode_base57_len t 11 (by omega) ht'
  have h2 : (encode_base57 p (some UUID_WIDTH)).length = 22 :=
    encode_base57_len p 22 (by omega) hp22
  refine ⟨?_, h1, h2⟩
  unfold generate_id57
  rw [List.length_append, h1, h2]

theorem C2_fixed_width_witness :
    (generate_id57 0 0).length = 33 ∧
      (encode_base57 0 (some TIMESTAMP_WIDTH)).length = 11 ∧
      (encode_base57 0 (some UUID_WIDTH)).length = 22 :=
  C2_fixed_width 0 0 (by decide) (by decide)

/-- C3: for timestamps t1 < t2 that both fit in 11 base57 digits and any two
payloads in [0, 2^128-1], generate(t1, p1) is strictly below generate(t2, p2)
in lexicographic (byte-wise) order. -/
theorem C3_monotonic (t1 t2 p1 p2 : Nat) (h12 : t1 < t2) (h2 : t2 < 57 ^ 11)
    (_hp1 : p1 ≤ U128_MAX) (_hp2 : p2 ≤ U128_MAX) :
    List.Lex (· < ·) (generate_id57 t1 p1) (generate_id57 t2 p2) := by
  have h1 : t1 < BASE ^ TIMESTAMP_WIDTH := lt_trans h12 h2
  have h2' : t2 < BASE ^ TIMESTAMP_WIDTH := h2
  unfold generate_id57
  apply lex_append
  · rw [encode_base57_padDigits t1 TIMESTAMP_WIDTH (by decide) h1,
      encode_base57_padDigits t2 TIMESTAMP_WIDTH (by decide) h2',
      List.length_map, List.length_map, padDigits_length, padDigits_length]
  · rw [encode_base57_padDigits t1 TIMESTAMP_WIDTH (by decide) h1,
      encode_base57_padDigits t2 TIMESTAMP_WIDTH (by decide) h2']
    apply lex_map_alph
    · exact padDigits_lt _ _ h1
    · exact padDigits_lt _ _ h2'
    · exact padDigits_lex _ t1 t2 h12 h2'

theorem C3_monotonic_witness :
    List.Lex (· < ·) (generate_id57 0 5) (generate_id57 1 3) :=
  C3_monotonic 0 1 5 3 (by decide) (by decide) (by decide) (by decide)

/-- C4: decoding a string of valid base57 characters whose left-to-right
positional value exceeds 2^128-1 fails with Overflow; a wrapped value is
never returned. -/
theorem C4_overflow (s : List Nat) (hval : ∀ c ∈ s, validChar c)
    (hbig : U128_MAX < listVal (s.map DECODE_TABLE) 0) :
    decode_base57 s = .error .overflow := by
  have hne : s ≠ [] := by
    intro h
    rw [h] at hbig
    revert hbig
    decide
  unfold decode_base57
  rw [if_neg hne, decodeLoop_valid s 0 0 hval (by decide), if_neg (by omega)]

theorem C4_overflow_witness :
    decode_base57 (strBytes "32222222222222222222222") = .error .overflow :=
  C4_overflow (strBytes "32222222222222222222222") (by decide) (by decide)

/-- C5 counterexample: this string contains the character 0 (code point 48),
which is outside the alphabet, yet decode fails with Overflow rather than
InvalidCharacter: the accumulator exceeds 2^128-1 on the 22nd z, before the
offending character is ever reached. -/
theorem C5_counterexample :
    (48 ∈ strBytes "zzzzzzzzzzzzzzzzzzzzzz0" ∧ DECODE_TABLE 48 = INVALID) ∧
      decode_base57 (strBytes "zzzzzzzzzzzzzzzzzzzzzz0") = .error .overflow := by
  refine ⟨⟨by decide, by decide⟩, by decide⟩

/-- C5 (amended): decode of the empty string fails with EmptyInput; and
whenever the first offending character (non-ASCII or outside the alphabet) is
preceded only by valid characters whose accumulated value stays within
2^128-1, decode fails with InvalidCharacter carrying that character and its
zero-based character position (which equals the reported byte position, every
preceding character being one UTF-8 byte). -/
theorem C5_invalid_character :
    decode_base57 [] = .error .emptyInput ∧
      ∀ pre c rest, (∀ x ∈ pre, validChar x) → ¬ validChar c →
        listVal (pre.map DECODE_TABLE) 0 ≤ U128_MAX →
        decode_base57 (pre ++ c :: rest)
          = .error (.invalidCharacter c pre.length) := by
  refine ⟨rfl, ?_⟩
  intro pre c rest hpre hc hbound
  unfold decode_base57
  rw [if_neg (by simp)]
  have h := decodeLoop_invalid c hc rest pre 0 0 hpre hbound
  simpa using h

theorem C5_invalid_character_witness :
    decode_base57 [50, 64] = .error (.invalidCharacter 64 1) :=
  C5_invalid_character.2 [50] 64 [] (by decide) (by decide) (by decide)

/-- C6: encode never truncates: a pad_to larger than the natural digit count
left-pads with the zero-digit character to total length exactly pad_to, and a
pad_to at most the natural length returns the unpadded natural encoding. -/
theorem C6_no_truncation (v w : Nat) :
    ((encode_base57_raw v).length < w →
      encode_base57 v (some w)
          = List.replicate (w - (encode_base57_raw v).length) (ALPHABET.getD 0 0)
            ++ encode_base57_raw v
        ∧ (encode_base57 v (some w)).length = w) ∧
    (w ≤ (encode_base57_raw v).length →
      encode_base57 v (some w) = encode_base57 v none) := by
  constructor
  · intro hlt
    refine ⟨encode_base57_pad_form v w (le_of_lt hlt), ?_⟩
    rw [encode_base57_pad_form v w (le_of_lt hlt), List.length_append,
      List.length_replicate]
    omega
  · intro hle
    show (if w > (encode_base57_raw v).length then
        List.replicate (w - (encode_base57_raw v).length) (ALPHABET.getD 0 0)
          ++ encode_base57_raw v
      else encode_base57_raw v) = encode_base57_raw v
    rw [if_neg (by omega)]

theorem C6_no_truncation_witness :
    (encode_base57 57 (some 5)
        = List.replicate 3 (ALPHABET.getD 0 0) ++ encode_base57_raw 57
      ∧ (encode_base57 57 (some 5)).length = 5)
    ∧ encode_base57 57 (some 1) = encode_base57 57 none :=
  ⟨(C6_no_truncation 57 5).1 (by decide), (C6_no_truncation 57 1).2 (by decide)⟩

/-- C7: encode(0) with no padding is the single zero-digit character 2, with
pad_to 5 it is 22222, and encode(57) is 32 (digit 1 then digit 0). -/
theorem C7_canonical_zero :
    encode_base57 0 none = strBytes "2" ∧
      encode_base57 0 (some 5) = strBytes "22222" ∧
      encode_base57 57 none = strBytes "32" := by
  refine ⟨by decide, by decide, by decide⟩

/-- C8: the alphabet is 57 pairwise-distinct printable ASCII characters, none
of which is 0, O, 1, I or l; consequently decode of the one-character string
0 fails with InvalidCharacter at position 0. -/
theorem C8_alphabet :
    ALPHABET.length = 57 ∧ ALPHABET.Nodup ∧
      (∀ c ∈ ALPHABET, 33 ≤ c ∧ c ≤ 126) ∧
      (∀ c ∈ strBytes "0O1Il", c ∉ ALPHABET) ∧
      decode_base57 (strBytes "0") = .error (.invalidCharacter 48 0) := by
  refine ⟨by decide, by decide, by decide, by decide, by decide⟩

/-- C9: every value in [0, 2^128-1] has a natural base57 encoding of at most
22 characters (57^22 > 2^128), so the payload segment padded to width 22 is
exactly 22 characters and never overflows its fixed width. -/
theorem C9_payload_width (v : Nat) (hv : v ≤ U128_MAX) :
    (encode_base57_raw v).length ≤ 22 ∧ (encode_base57 v (some 22)).length = 22 := by
  have hv22 : v < BASE ^ 22 := by
    have h1 : U128_MAX < BASE ^ 22 := by decide
    omega
  exact ⟨encode_base57_raw_len_le v 22 (by omega) hv22,
    encode_base57_len v 22 (by omega) hv22⟩

theorem C9_payload_width_witness :
    (encode_base57_raw 0).length ≤ 22 ∧ (encode_base57 0 (some 22)).length = 22 :=
  C9_payload_width 0 (by decide)

/-- C10: every character of any encoder output (any value, any pad_to) is an
alphabet character; decoding an encoder output of a value in [0, 2^128-1]
never fails with InvalidCharacter or EmptyInput. -/
theorem C10_encode_chars (v : Nat) (hv : v ≤ U128_MAX) (w : Option Nat) :
    (∀ c ∈ encode_base57 v w, c ∈ ALPHABET) ∧
      (∀ ch pos, decode_base57 (encode_base57 v w)
          ≠ .error (.invalidCharacter ch pos)) ∧
      decode_base57 (encode_base57 v w) ≠ .error .emptyInput := by
  have hdec := decode_encode v hv w
  refine ⟨?_, ?_, ?_⟩
  · intro c hc
    rcases encode_base57_chars v w c hc with ⟨d, hd, rfl⟩
    exact alph_mem d hd
  · intro ch pos h
    rw [hdec] at h
    exact Except.noConfusion h
  · intro h
    rw [hdec] at h
    exact Except.noConfusion h

theorem C10_encode_chars_witness :
    (∀ c ∈ encode_base57 7 (some 3), c ∈ ALPHABET) ∧
      (∀ ch pos, decode_base57 (encode_base57 7 (some 3))
          ≠ .error (.invalidCharacter ch pos)) ∧
      decode_base57 (encode_base57 7 (some 3)) ≠ .error .emptyInput :=
  C10_encode_chars 7 (by decide) (some 3)
